import Mathlib

/-!
Shallow embedding of tfe.py (TarFileExplorer).

Tar member paths are modelled as lists of characters.  The Python string
primitives the source uses (str.split with a one-character separator,
sep.join, negative-index slicing, str.lower, lexicographic string
comparison, stable sorting) are modelled explicitly below, and the
tkinter widgets are treated as external collaborators: the model keeps
the state the source keeps (tree_dict, current_path,
opened_at_least_one_tmp, the staging temp directory and the window) and
records the calls made to the collaborators (archive extraction, staging
writes, system_viewer) as events.
-/

abbrev TarPath := List Char

/-- os.path.sep of the source, fixed to the POSIX separator used inside
tar archives. -/
def DELIMITER : Char := '/'

/-- The synthetic parent entry the listbox shows for non-root
directories. -/
def parentMarker : TarPath := ['.', '.']

/-- Python str.split(sep) for a one-character separator: cuts at every
occurrence of sep, keeping empty pieces, and yields one (possibly empty)
piece even on the empty string. -/
def pySplit (sep : Char) : List Char → List (List Char)
  | [] => [[]]
  | c :: cs =>
    if c = sep then [] :: pySplit sep cs
    else (c :: (pySplit sep cs).headD []) :: (pySplit sep cs).tail

/-- Python sep.join for a one-character separator. -/
def pyJoin (sep : Char) : List (List Char) → List Char
  | [] => []
  | [x] => x
  | x :: y :: rest => x ++ sep :: pyJoin sep (y :: rest)

/-- DELIMITER.join(p.split(DELIMITER)[:-1])  (tfe.py line 52): the
parent path of a member path. -/
def tarParent (p : TarPath) : TarPath :=
  pyJoin DELIMITER ((pySplit DELIMITER p).dropLast)

/-- Number of path segments of a member path. -/
def numSegs (p : TarPath) : Nat :=
  (pySplit DELIMITER p).length

/-- Python string comparison: lexicographic on character code points. -/
def pathLe : List Char → List Char → Bool
  | [], _ => true
  | _ :: _, [] => false
  | a :: as, b :: bs => if a = b then pathLe as bs else decide (a < b)

/-- Insert into a sorted list, before the first strictly larger element
(stable, so equal elements keep their relative order). -/
def insertSorted (x : TarPath) : List TarPath → List TarPath
  | [] => [x]
  | y :: ys => if pathLe x y then x :: y :: ys else y :: insertSorted x ys

/-- sorted(...) of tfe.py line 53.  Python sorts the (path, parent)
pairs, but parent is a function of path, so this equals the stable sort
of the paths themselves; for the total order pathLe any sorting
algorithm returns the same list, so a structurally recursive insertion
sort is used. -/
def sortPaths : List TarPath → List TarPath
  | [] => []
  | x :: xs => insertSorted x (sortPaths xs)

/-- One iteration of the index-building loop (tfe.py lines 56-57):
self.tree_dict[parent].append(path_file) on a defaultdict(list),
modelled on the observable mapping key ↦ bucket. -/
def insertChild (d : TarPath → List TarPath) (parent child : TarPath) :
    TarPath → List TarPath :=
  fun k => if k = parent then d k ++ [child] else d k

/-- The index-building loop over the sorted member paths. -/
def buildLoop : (TarPath → List TarPath) → List TarPath → (TarPath → List TarPath)
  | d, [] => d
  | d, p :: ps => buildLoop (insertChild d (tarParent p) p) ps

/-- self.tree_dict after tfe.py lines 51-57, as the observable mapping
from a directory path to its bucket (a missing key reads as [], the
defaultdict default). -/
def treeDict (paths : List TarPath) : TarPath → List TarPath :=
  buildLoop (fun _ => []) (sortPaths paths)

/-- The session state the source keeps on self (tfe.py __init__):
tree_dict, current_path, opened_at_least_one_tmp, plus liveness of the
staging temp directory and of the window. -/
structure AppState where
  tree_dict : TarPath → List TarPath
  current_path : TarPath
  opened_at_least_one_tmp : Bool
  staging_live : Bool
  window_open : Bool

/-- TarFileExplorer.__init__ (tfe.py lines 48-90).  On an archive with
zero members the line
tar_files_pathes, tar_parents = zip(*sorted(zip(...)))
unpacks an empty zip object into two names and raises ValueError; this
error path is modelled as none. -/
def initExplorer (paths : List TarPath) : Option AppState :=
  if paths = [] then none
  else some
    { tree_dict := treeDict paths
      current_path := []
      opened_at_least_one_tmp := false
      staging_live := true
      window_open := true }

/-- Calls made to the external collaborators. -/
inductive Event where
  | extractDisk (p : TarPath)
  | stageWrite (p : TarPath)
  | view (p : TarPath)
deriving DecidableEq

/-- The listbox contents for a directory (tfe.py lines 120-123):
a parent marker when not at root, then the bucket of the directory. -/
def listing (tree : TarPath → List TarPath) (cur : TarPath) : List TarPath :=
  (if cur ≠ [] then [parentMarker] else []) ++ tree cur

/-- TarFileExplorer.dbl_click_listbox (tfe.py lines 102-123).  isFile
models tar_root.getmember(...).isfile(); tmpdir the staging directory
name.  Returns the new state and the collaborator calls made. -/
def dbl_click_listbox (isFile : TarPath → Bool) (tmpdir : TarPath)
    (st : AppState) (selection : TarPath) : AppState × List Event :=
  if selection = parentMarker then
    ({ st with current_path := tarParent st.current_path }, [])
  else if isFile selection then
    ({ st with opened_at_least_one_tmp := true },
      [Event.stageWrite (tmpdir ++ DELIMITER :: (pySplit DELIMITER selection).getLastD []),
       Event.view (tmpdir ++ DELIMITER :: (pySplit DELIMITER selection).getLastD [])])
  else
    ({ st with current_path := selection }, [])

/-- What the preview canvas shows after click_listbox. -/
inductive Preview where
  | blank
  | placeholderText
  | imageRender
deriving DecidableEq

/-- Python str.lower restricted to ASCII; for the extension test of
tfe.py line 151 (whose targets are ASCII) this agrees with Python. -/
def asciiLower (c : Char) : Char :=
  if 'A' ≤ c ∧ c ≤ 'Z' then Char.ofNat (c.toNat + 32) else c

/-- Python s[-n:]: the last n characters (the whole string when shorter). -/
def pySliceLast (n : Nat) (l : List Char) : List Char :=
  l.drop (l.length - n)

def imageTail4 : List (List Char) :=
  [['.', 'p', 'n', 'g'], ['.', 't', 'i', 'f'], ['.', 'j', 'p', 'g']]

def imageTail5 : List (List Char) :=
  [['.', 'j', 'p', 'e', 'g'], ['.', 't', 'i', 'f', 'f'], ['.', 'w', 'e', 'b', 'p']]

def imageExts : List (List Char) := imageTail4 ++ imageTail5

/-- TarFileExplorer.click_listbox (tfe.py lines 126-164), as the preview
outcome.  canvasW and canvasH are the computed canvas dimensions of
lines 129-130; the source returns before drawing anything when either is
at most 50 (line 137), and this happens before the parent-marker, file
and extension tests. -/
def click_listbox (isFile : TarPath → Bool) (selection : TarPath)
    (canvasW canvasH : Int) : Preview :=
  if min canvasH canvasW ≤ 50 then Preview.blank
  else if selection = parentMarker then Preview.blank
  else if isFile selection = false then Preview.placeholderText
  else if ¬((pySliceLast 4 selection).map asciiLower ∈ imageTail4 ∨
            (pySliceLast 5 selection).map asciiLower ∈ imageTail5) then
    Preview.placeholderText
  else Preview.imageRender

/-- The while loop of tfe.py lines 180-184: dequeue the head, extract
it, enqueue its bucket.  The loop as written is unbounded; fuel bounds
the number of iterations (under the well-formedness hypotheses proved
below the chosen fuel always exhausts the queue, so the bound is not
restrictive). -/
def bfsLoop (tree : TarPath → List TarPath) : Nat → List TarPath → List TarPath
  | 0, _ => []
  | _ + 1, [] => []
  | fuel + 1, s :: rest => s :: bfsLoop tree fuel (rest ++ tree s)

/-- TarFileExplorer.extract_selection (tfe.py lines 167-185), as the
sequence of collaborator calls. -/
def extract_selection (tree : TarPath → List TarPath) (isFile : TarPath → Bool)
    (fuel : Nat) (selection : TarPath) : List Event :=
  if selection = parentMarker then []
  else if isFile selection then
    [Event.extractDisk selection, Event.view (tarParent selection)]
  else
    (bfsLoop tree fuel [selection]).map Event.extractDisk ++ [Event.view selection]

/-- TarFileExplorer.on_close (tfe.py lines 188-194).  confirm is the
user's answer to the messagebox; thanks to the short-circuit or, the
dialog is shown exactly when opened_at_least_one_tmp holds, which the
second component records. -/
def on_close (st : AppState) (confirm : Bool) : AppState × Bool :=
  if st.opened_at_least_one_tmp = false then
    ({ st with staging_live := false, window_open := false }, false)
  else if confirm then
    ({ st with staging_live := false, window_open := false }, true)
  else (st, true)

/-- The user actions the GUI dispatches. -/
inductive UserAction where
  | dblClick (selection : TarPath)
  | preview (selection : TarPath) (canvasW canvasH : Int)
  | extract (selection : TarPath)
  | close (confirm : Bool)

/-- One dispatch of a user action, as a transition on the session state.
click_listbox only draws on the canvas and extract_selection only
writes to disk, so neither changes the session state. -/
def step (isFile : TarPath → Bool) (tmpdir : TarPath) (st : AppState) :
    UserAction → AppState
  | UserAction.dblClick selection => (dbl_click_listbox isFile tmpdir st selection).1
  | UserAction.preview _ _ _ => st
  | UserAction.extract _ => st
  | UserAction.close confirm => (on_close st confirm).1

/-- Concatenation of the buckets of a queue of directories. -/
def flatChildren (tree : TarPath → List TarPath) : List TarPath → List TarPath
  | [] => []
  | s :: rest => tree s ++ flatChildren tree rest

/-- The n-th breadth-first level of the traversal of tree starting from
the queue q. -/
def bfsLevel (tree : TarPath → List TarPath) : List TarPath → Nat → List TarPath
  | q, 0 => q
  | q, n + 1 => flatChildren tree (bfsLevel tree q n)

/-- Concatenation of the first n breadth-first levels. -/
def bfsJoin (tree : TarPath → List TarPath) : List TarPath → Nat → List TarPath
  | _, 0 => []
  | q, n + 1 => q ++ bfsJoin tree (flatChildren tree q) n

/-- b is a descendant of a in the Path Index (reflexive-transitive
closure of bucket membership). -/
def Descendant (tree : TarPath → List TarPath) (a b : TarPath) : Prop :=
  Relation.ReflTransGen (fun x y => y ∈ tree x) a b

/-- Concrete archive used by the witnesses: members a, a/b, a/b/x, a/c, d.txt. -/
def wPaths : List TarPath :=
  [['a'], ['a', '/', 'b'], ['a', '/', 'b', '/', 'x'], ['a', '/', 'c'],
   ['d', '.', 't', 'x', 't']]

/-- The session state initExplorer builds for wPaths. -/
def wState : AppState :=
  { tree_dict := treeDict wPaths
    current_path := []
    opened_at_least_one_tmp := false
    staging_live := true
    window_open := true }

/-- Membership test for wPaths, marking directories; only a and a/b have
children. -/
def wIsFile (p : TarPath) : Bool :=
  decide (p = ['a', '/', 'b', '/', 'x']) || decide (p = ['a', '/', 'c']) ||
  decide (p = ['d', '.', 't', 'x', 't'])

/-! ### String lemmas: pySplit, pyJoin, tarParent -/

theorem pySplit_ne_nil (sep : Char) (s : List Char) : pySplit sep s ≠ [] := by
  cases s with
  | nil => simp [pySplit]
  | cons c cs =>
    simp only [pySplit]
    split <;> simp

theorem pySplit_eq_cons (sep : Char) (s : List Char) :
    ∃ h t, pySplit sep s = h :: t := by
  cases hs : pySplit sep s with
  | nil => exact absurd hs (pySplit_ne_nil sep s)
  | cons h t => exact ⟨h, t, rfl⟩

theorem sep_not_mem_pySplit (sep : Char) (s : List Char) :
    ∀ x ∈ pySplit sep s, sep ∉ x := by
  induction s with
  | nil =>
    intro x hx
    simp [pySplit] at hx
    simp [hx]
  | cons c cs ih =>
    intro x hx
    obtain ⟨h, t, hht⟩ := pySplit_eq_cons sep cs
    by_cases hc : c = sep
    · simp only [pySplit, if_pos hc, List.mem_cons] at hx
      rcases hx with hx | hx
      · simp [hx]
      · exact ih x hx
    · simp only [pySplit, if_neg hc, hht, List.headD_cons, List.tail_cons,
        List.mem_cons] at hx
      rcases hx with hx | hx
      · subst hx
        intro hmem
        rcases List.mem_cons.mp hmem with h1 | h1
        · exact hc h1.symm
        · exact ih h (by simp [hht]) h1
      · exact ih x (by simp [hht, List.mem_cons]; exact Or.inr hx)

theorem pySplit_no_sep (sep : Char) (x : List Char) (hx : sep ∉ x) :
    pySplit sep x = [x] := by
  induction x with
  | nil => rfl
  | cons c cs ih =>
    have hc : ¬c = sep := fun h => hx (by simp [h])
    have hcs : sep ∉ cs := fun h => hx (List.mem_cons_of_mem c h)
    simp [pySplit, if_neg hc, ih hcs]

theorem pySplit_append_sep (sep : Char) (x t : List Char) (hx : sep ∉ x) :
    pySplit sep (x ++ sep :: t) = x :: pySplit sep t := by
  induction x with
  | nil => simp [pySplit]
  | cons c cs ih =>
    have hc : ¬c = sep := fun h => hx (by simp [h])
    have hcs : sep ∉ cs := fun h => hx (List.mem_cons_of_mem c h)
    simp [pySplit, if_neg hc, ih hcs]

theorem pySplit_pyJoin (sep : Char) (xs : List (List Char)) (hne : xs ≠ [])
    (hs : ∀ x ∈ xs, sep ∉ x) :
    pySplit sep (pyJoin sep xs) = xs := by
  induction xs with
  | nil => exact absurd rfl hne
  | cons x rest ih =>
    cases rest with
    | nil =>
      simp only [pyJoin]
      exact pySplit_no_sep sep x (hs x (by simp))
    | cons y rest2 =>
      have hx : sep ∉ x := hs x (by simp)
      have hrest : ∀ z ∈ y :: rest2, sep ∉ z := by
        intro z hz
        exact hs z (List.mem_cons_of_mem x hz)
      simp only [pyJoin]
      rw [pySplit_append_sep sep x (pyJoin sep (y :: rest2)) hx,
        ih (by simp) hrest]

theorem pySplit_head_empty (sep : Char) (p : List Char) (s : List Char)
    (r : List (List Char)) (hp : pySplit sep p = [] :: s :: r) :
    p.head? = some sep := by
  cases p with
  | nil => simp [pySplit] at hp
  | cons c cs =>
    by_cases hc : c = sep
    · simp [hc]
    · obtain ⟨h, t, hht⟩ := pySplit_eq_cons sep cs
      simp [pySplit, if_neg hc, hht] at hp

theorem numSegs_pos (p : TarPath) : 0 < numSegs p := by
  have := pySplit_ne_nil DELIMITER p
  simpa [numSegs, List.length_pos] using this

/-- The parent of a member path is empty exactly for one-segment paths,
provided the path does not begin with the separator. -/
theorem tarParent_eq_nil_iff (p : TarPath) (hp : p.head? ≠ some DELIMITER) :
    tarParent p = [] ↔ numSegs p = 1 := by
  obtain ⟨h, t, hht⟩ := pySplit_eq_cons DELIMITER p
  constructor
  · intro hpar
    cases t with
    | nil => simp [numSegs, hht]
    | cons a t2 =>
      cases t2 with
      | nil =>
        have hdrop : (pySplit DELIMITER p).dropLast = [h] := by
          simp [hht]
        rw [tarParent, hdrop] at hpar
        simp only [pyJoin] at hpar
        subst hpar
        exact absurd (pySplit_head_empty DELIMITER p a [] hht) hp
      | cons b t3 =>
        have hdrop : (pySplit DELIMITER p).dropLast =
            h :: (a :: b :: t3).dropLast := by
          simp [hht]
        rw [tarParent, hdrop] at hpar
        have : (a :: b :: t3).dropLast = a :: (b :: t3).dropLast := by
          simp
        rw [this] at hpar
        simp only [pyJoin] at hpar
        rcases List.append_eq_nil.mp hpar with ⟨_, h2⟩
        exact absurd h2 (List.cons_ne_nil _ _)
  · intro hone
    have ht : t = [] := by
      have := hone
      simp [numSegs, hht] at this
      exact this
    subst ht
    simp [tarParent, hht, pyJoin]

/-- One path segment fewer: when the computed parent is non-empty, the
child has exactly one segment more than the parent. -/
theorem numSegs_of_tarParent (c k : TarPath) (hk : tarParent c = k)
    (hne : k ≠ []) : numSegs c = numSegs k + 1 := by
  obtain ⟨h, t, hht⟩ := pySplit_eq_cons DELIMITER c
  cases t with
  | nil =>
    rw [tarParent, hht] at hk
    simp [pyJoin] at hk
    exact absurd hk.symm (fun h => hne h.symm)
  | cons a t2 =>
    have hdl : (pySplit DELIMITER c).dropLast ≠ [] := by
      simp [hht]
    have hsub : ∀ x ∈ (pySplit DELIMITER c).dropLast, DELIMITER ∉ x := by
      intro x hx
      exact sep_not_mem_pySplit DELIMITER c x
        ((List.dropLast_sublist (pySplit DELIMITER c)).subset hx)
    have hsplit : pySplit DELIMITER k = (pySplit DELIMITER c).dropLast := by
      rw [← hk, tarParent]
      exact pySplit_pyJoin DELIMITER _ hdl hsub
    have hlen : numSegs k = numSegs c - 1 := by
      rw [numSegs, hsplit, List.length_dropLast, numSegs]
    have hcpos : 2 ≤ numSegs c := by
      simp [numSegs, hht]
    omega

/-! ### Sorting and the Path Index -/

theorem insertSorted_perm (x : TarPath) (l : List TarPath) :
    (insertSorted x l).Perm (x :: l) := by
  induction l with
  | nil => exact List.Perm.refl _
  | cons y ys ih =>
    simp only [insertSorted]
    split
    · exact List.Perm.refl _
    · exact (List.Perm.cons y ih).trans (List.Perm.swap x y ys)

theorem sortPaths_perm (l : List TarPath) : (sortPaths l).Perm l := by
  induction l with
  | nil => exact List.Perm.refl _
  | cons x xs ih =>
    exact (insertSorted_perm x (sortPaths xs)).trans (List.Perm.cons x ih)

theorem buildLoop_apply (l : List TarPath) :
    ∀ (d : TarPath → List TarPath) (k : TarPath),
      buildLoop d l k = d k ++ l.filter (fun p => decide (tarParent p = k)) := by
  induction l with
  | nil => intro d k; simp [buildLoop]
  | cons p ps ih =>
    intro d k
    rw [buildLoop, ih]
    by_cases hp : tarParent p = k
    · simp [insertChild, hp, List.filter_cons]
    · have : ¬k = tarParent p := fun h => hp h.symm
      simp [insertChild, this, List.filter_cons, hp]

theorem treeDict_apply (paths : List TarPath) (k : TarPath) :
    treeDict paths k = (sortPaths paths).filter (fun p => decide (tarParent p = k)) := by
  rw [treeDict, buildLoop_apply]
  simp

theorem mem_treeDict (paths : List TarPath) (k p : TarPath) :
    p ∈ treeDict paths k ↔ (p ∈ paths ∧ tarParent p = k) := by
  rw [treeDict_apply, List.mem_filter]
  constructor
  · intro ⟨h1, h2⟩
    exact ⟨(sortPaths_perm paths).mem_iff.mp h1, of_decide_eq_true h2⟩
  · intro ⟨h1, h2⟩
    exact ⟨(sortPaths_perm paths).mem_iff.mpr h1, decide_eq_true h2⟩

theorem treeDict_nodup (paths : List TarPath) (hnd : paths.Nodup) (k : TarPath) :
    (treeDict paths k).Nodup := by
  rw [treeDict_apply]
  exact List.Nodup.filter _ ((sortPaths_perm paths).nodup_iff.mpr hnd)

theorem treeDict_parent (paths : List TarPath) (k p : TarPath)
    (h : p ∈ treeDict paths k) : tarParent p = k :=
  ((mem_treeDict paths k p).mp h).2

/-! ### The breadth-first extraction loop -/

theorem mem_flatChildren (tree : TarPath → List TarPath) (q : List TarPath)
    (p : TarPath) :
    p ∈ flatChildren tree q ↔ ∃ k ∈ q, p ∈ tree k := by
  induction q with
  | nil => simp [flatChildren]
  | cons s rest ih =>
    simp [flatChildren, ih, List.mem_append]

theorem flatChildren_append (tree : TarPath → List TarPath)
    (q r : List TarPath) :
    flatChildren tree (q ++ r) = flatChildren tree q ++ flatChildren tree r := by
  induction q with
  | nil => simp [flatChildren]
  | cons s rest ih => simp [flatChildren, ih]

theorem flatChildren_nodup (tree : TarPath → List TarPath) (q : List TarPath)
    (hq : q.Nodup) (hbkt : ∀ k, (tree k).Nodup)
    (huniq : ∀ k1 k2 c, c ∈ tree k1 → c ∈ tree k2 → k1 = k2) :
    (flatChildren tree q).Nodup := by
  induction q with
  | nil => simp [flatChildren]
  | cons s rest ih =>
    rw [flatChildren, List.nodup_append]
    refine ⟨hbkt s, ih (List.Nodup.of_cons hq), ?_⟩
    intro c hc1 hc2
    obtain ⟨k, hk, hck⟩ := (mem_flatChildren tree rest c).mp hc2
    have : s = k := huniq s k c hc1 hck
    subst this
    exact (List.nodup_cons.mp hq).1 hk

theorem bfsLevel_shift (tree : TarPath → List TarPath) (q : List TarPath)
    (n : Nat) :
    bfsLevel tree q (n + 1) = bfsLevel tree (flatChildren tree q) n := by
  induction n with
  | zero => rfl
  | succ m ih =>
    show flatChildren tree (bfsLevel tree q (m + 1)) = _
    rw [ih]
    rfl

theorem bfsLevel_add (tree : TarPath → List TarPath) (q : List TarPath)
    (a b : Nat) :
    bfsLevel tree q (a + b) = bfsLevel tree (bfsLevel tree q a) b := by
  induction b with
  | zero => rfl
  | succ m ih =>
    show bfsLevel tree q (a + m + 1) = _
    rw [bfsLevel, ih]
    rfl

theorem mem_bfsJoin (tree : TarPath → List TarPath) (N : Nat) :
    ∀ (q : List TarPath) (p : TarPath),
      p ∈ bfsJoin tree q N ↔ ∃ n, n < N ∧ p ∈ bfsLevel tree q n := by
  induction N with
  | zero => intro q p; simp [bfsJoin]
  | succ M ih =>
    intro q p
    rw [bfsJoin, List.mem_append, ih]
    constructor
    · rintro (hq | ⟨n, hn, hmem⟩)
      · exact ⟨0, Nat.succ_pos M, hq⟩
      · refine ⟨n + 1, by omega, ?_⟩
        rw [bfsLevel_shift]
        exact hmem
    · rintro ⟨n, hn, hmem⟩
      cases n with
      | zero => exact Or.inl hmem
      | succ m =>
        right
        refine ⟨m, by omega, ?_⟩
        rw [bfsLevel_shift] at hmem
        exact hmem

theorem bfsJoin_split (tree : TarPath → List TarPath) (M : Nat) :
    ∀ (N : Nat) (q : List TarPath), M ≤ N →
      bfsJoin tree q N =
        bfsJoin tree q M ++ bfsJoin tree (bfsLevel tree q M) (N - M) := by
  induction M with
  | zero => intro N q _; simp [bfsJoin, bfsLevel]
  | succ M2 ih =>
    intro N q hMN
    cases N with
    | zero => omega
    | succ N2 =>
      have h2 : M2 ≤ N2 := by omega
      rw [bfsJoin, bfsJoin, ih N2 (flatChildren tree q) h2, List.append_assoc]
      have hl : bfsLevel tree (flatChildren tree q) M2 =
          bfsLevel tree q (M2 + 1) := (bfsLevel_shift tree q M2).symm
      rw [hl]
      have hsub : N2 + 1 - (M2 + 1) = N2 - M2 := by omega
      rw [hsub]

theorem bfsJoin_nodup (tree : TarPath → List TarPath) (N : Nat) :
    ∀ (q : List TarPath),
      (∀ n, (bfsLevel tree q n).Nodup) →
      (∀ m n p, p ∈ bfsLevel tree q m → p ∈ bfsLevel tree q n → m = n) →
      (bfsJoin tree q N).Nodup := by
  induction N with
  | zero => intro q _ _; simp [bfsJoin]
  | succ M ih =>
    intro q hnd hdisj
    rw [bfsJoin, List.nodup_append]
    refine ⟨hnd 0, ?_, ?_⟩
    · refine ih (flatChildren tree q) (fun n => ?_) (fun m n p hm hn => ?_)
      · rw [← bfsLevel_shift]; exact hnd (n + 1)
      · rw [← bfsLevel_shift] at hm hn
        have := hdisj (m + 1) (n + 1) p hm hn
        omega
    · intro p hp0 hpj
      obtain ⟨n, _, hn⟩ := (mem_bfsJoin tree M (flatChildren tree q) p).mp hpj
      rw [← bfsLevel_shift] at hn
      exact absurd (hdisj 0 (n + 1) p hp0 hn) (by omega)

theorem bfsLoop_nil (tree : TarPath → List TarPath) (fuel : Nat) :
    bfsLoop tree fuel [] = [] := by
  cases fuel <;> rfl

theorem bfsLoop_chunk (tree : TarPath → List TarPath) (q : List TarPath) :
    ∀ (r : List TarPath) (fuel : Nat), q.length ≤ fuel →
      bfsLoop tree fuel (q ++ r) =
        q ++ bfsLoop tree (fuel - q.length) (r ++ flatChildren tree q) := by
  induction q with
  | nil =>
    intro r fuel _
    simp [flatChildren]
  | cons s rest ih =>
    intro r fuel hlen
    cases fuel with
    | zero => simp at hlen
    | succ f =>
      have hle : rest.length ≤ f := by simpa using hlen
      show s :: bfsLoop tree f (rest ++ r ++ tree s) = _
      have : rest ++ r ++ tree s = rest ++ (r ++ tree s) := by
        rw [List.append_assoc]
      rw [this, ih (r ++ tree s) f hle]
      have harr : r ++ tree s ++ flatChildren tree rest =
          r ++ flatChildren tree (s :: rest) := by
        rw [flatChildren, List.append_assoc]
      have hsub : f + 1 - (s :: rest).length = f - rest.length := by
        simp
      rw [harr, hsub]
      simp

theorem bfsLoop_eq_bfsJoin (tree : TarPath → List TarPath) (N : Nat) :
    ∀ (q : List TarPath) (fuel : Nat),
      bfsLevel tree q N = [] → (bfsJoin tree q N).length ≤ fuel →
      bfsLoop tree fuel q = bfsJoin tree q N := by
  induction N with
  | zero =>
    intro q fuel hN _
    have : q = [] := hN
    subst this
    simp [bfsJoin, bfsLoop_nil]
  | succ M ih =>
    intro q fuel hN hfuel
    have hq : bfsLevel tree (flatChildren tree q) M = [] := by
      rw [← bfsLevel_shift]; exact hN
    have hsplit := bfsLoop_chunk tree q [] fuel (by
      rw [bfsJoin] at hfuel
      simp at hfuel
      omega)
    rw [List.append_nil] at hsplit
    rw [hsplit]
    simp only [List.nil_append]
    rw [bfsJoin]
    rw [ih (flatChildren tree q) (fuel - q.length) hq (by
      rw [bfsJoin] at hfuel
      simp at hfuel
      omega)]

/-! ### Rank (segment-count) facts about the traversal of the Path Index -/

theorem treeDict_uniq (paths : List TarPath) (k1 k2 c : TarPath)
    (h1 : c ∈ treeDict paths k1) (h2 : c ∈ treeDict paths k2) : k1 = k2 := by
  rw [← treeDict_parent paths k1 c h1, ← treeDict_parent paths k2 c h2]

theorem bfsLevel_rank (paths : List TarPath) (sel : TarPath)
    (hwf : ∀ p ∈ paths, p ≠ []) (hsel : sel ∈ paths) :
    ∀ n p, p ∈ bfsLevel (treeDict paths) [sel] n →
      p ∈ paths ∧ numSegs p = numSegs sel + n := by
  intro n
  induction n with
  | zero =>
    intro p hp
    have : p = sel := by simpa [bfsLevel] using hp
    subst this
    exact ⟨hsel, rfl⟩
  | succ m ih =>
    intro p hp
    rw [bfsLevel] at hp
    obtain ⟨k, hk, hpk⟩ := (mem_flatChildren _ _ p).mp hp
    obtain ⟨hkpaths, hkrank⟩ := ih k hk
    obtain ⟨hppaths, hpar⟩ := (mem_treeDict paths k p).mp hpk
    have hkne : k ≠ [] := hwf k hkpaths
    have := numSegs_of_tarParent p k hpar hkne
    exact ⟨hppaths, by omega⟩

theorem bfsLevel_start_nodup (paths : List TarPath) (sel : TarPath)
    (hnd : paths.Nodup) :
    ∀ n, (bfsLevel (treeDict paths) [sel] n).Nodup := by
  intro n
  induction n with
  | zero => simp [bfsLevel]
  | succ m ih =>
    rw [bfsLevel]
    exact flatChildren_nodup (treeDict paths) _ ih
      (treeDict_nodup paths hnd) (treeDict_uniq paths)

theorem bfsLevel_disjoint (paths : List TarPath) (sel : TarPath)
    (hwf : ∀ p ∈ paths, p ≠ []) (hsel : sel ∈ paths) :
    ∀ m n p, p ∈ bfsLevel (treeDict paths) [sel] m →
      p ∈ bfsLevel (treeDict paths) [sel] n → m = n := by
  intro m n p hm hn
  have h1 := (bfsLevel_rank paths sel hwf hsel m p hm).2
  have h2 := (bfsLevel_rank paths sel hwf hsel n p hn).2
  omega

theorem bfsLevel_empty_of_large (paths : List TarPath) (sel : TarPath)
    (hwf : ∀ p ∈ paths, p ≠ []) (hsel : sel ∈ paths) :
    ∀ n, (paths.map numSegs).sum ≤ n →
      bfsLevel (treeDict paths) [sel] n = [] := by
  intro n hn
  rw [List.eq_nil_iff_forall_not_mem]
  intro p hp
  obtain ⟨hppaths, hrank⟩ := bfsLevel_rank paths sel hwf hsel n p hp
  have hle : numSegs p ≤ (paths.map numSegs).sum :=
    List.single_le_sum (fun x _ => Nat.zero_le x) (numSegs p)
      (List.mem_map_of_mem numSegs hppaths)
  have hpos : 0 < numSegs sel := numSegs_pos sel
  omega

theorem bfsJoin_start_subset (paths : List TarPath) (sel : TarPath)
    (hwf : ∀ p ∈ paths, p ≠ []) (hsel : sel ∈ paths) (N : Nat) :
    ∀ p, p ∈ bfsJoin (treeDict paths) [sel] N → p ∈ paths := by
  intro p hp
  obtain ⟨n, _, hn⟩ := (mem_bfsJoin _ N _ p).mp hp
  exact (bfsLevel_rank paths sel hwf hsel n p hn).1

theorem bfsJoin_start_nodup (paths : List TarPath) (sel : TarPath)
    (hnd : paths.Nodup) (hwf : ∀ p ∈ paths, p ≠ []) (hsel : sel ∈ paths)
    (N : Nat) : (bfsJoin (treeDict paths) [sel] N).Nodup :=
  bfsJoin_nodup (treeDict paths) N [sel]
    (bfsLevel_start_nodup paths sel hnd)
    (bfsLevel_disjoint paths sel hwf hsel)

/-- With the fuel the model passes, the extraction loop runs to queue
exhaustion and returns exactly the concatenation of the breadth-first
levels. -/
theorem bfsLoop_run (paths : List TarPath) (sel : TarPath)
    (hnd : paths.Nodup) (hwf : ∀ p ∈ paths, p ≠ []) (hsel : sel ∈ paths) :
    bfsLoop (treeDict paths) (paths.length + 1) [sel] =
      bfsJoin (treeDict paths) [sel] ((paths.map numSegs).sum) := by
  apply bfsLoop_eq_bfsJoin
  · exact bfsLevel_empty_of_large paths sel hwf hsel _ le_rfl
  · have hsub : ∀ p, p ∈ bfsJoin (treeDict paths) [sel] ((paths.map numSegs).sum) →
        p ∈ paths := bfsJoin_start_subset paths sel hwf hsel _
    have hnodup := bfsJoin_start_nodup paths sel hnd hwf hsel
      ((paths.map numSegs).sum)
    have := (List.subperm_of_subset hnodup hsub).length_le
    omega

/-! ### Levels and descendants -/

theorem bfsLevel_descendant (tree : TarPath → List TarPath) (sel : TarPath) :
    ∀ n p, p ∈ bfsLevel tree [sel] n → Descendant tree sel p := by
  intro n
  induction n with
  | zero =>
    intro p hp
    have : p = sel := by simpa [bfsLevel] using hp
    subst this
    exact Relation.ReflTransGen.refl
  | succ m ih =>
    intro p hp
    rw [bfsLevel] at hp
    obtain ⟨k, hk, hpk⟩ := (mem_flatChildren _ _ p).mp hp
    exact Relation.ReflTransGen.tail (ih k hk) hpk

theorem descendant_mem_bfsLevel (tree : TarPath → List TarPath)
    (sel p : TarPath) (h : Descendant tree sel p) :
    ∃ n, p ∈ bfsLevel tree [sel] n := by
  induction h with
  | refl => exact ⟨0, by simp [bfsLevel]⟩
  | tail hab hbc ih =>
    obtain ⟨n, hn⟩ := ih
    refine ⟨n + 1, ?_⟩
    rw [bfsLevel]
    exact (mem_flatChildren _ _ _).mpr ⟨_, hn, hbc⟩

theorem mem_bfsLoop_iff_descendant (paths : List TarPath) (sel : TarPath)
    (hnd : paths.Nodup) (hwf : ∀ p ∈ paths, p ≠ []) (hsel : sel ∈ paths) :
    ∀ p, p ∈ bfsLoop (treeDict paths) (paths.length + 1) [sel] ↔
      Descendant (treeDict paths) sel p := by
  intro p
  rw [bfsLoop_run paths sel hnd hwf hsel, mem_bfsJoin]
  constructor
  · rintro ⟨n, _, hn⟩
    exact bfsLevel_descendant (treeDict paths) sel n p hn
  · intro h
    obtain ⟨n, hn⟩ := descendant_mem_bfsLevel (treeDict paths) sel p h
    refine ⟨n, ?_, hn⟩
    by_contra hge
    have : bfsLevel (treeDict paths) [sel] n = [] :=
      bfsLevel_empty_of_large paths sel hwf hsel n (by omega)
    rw [this] at hn
    exact absurd hn (List.not_mem_nil p)

theorem bfsLoop_before (paths : List TarPath) (sel : TarPath)
    (hnd : paths.Nodup) (hwf : ∀ p ∈ paths, p ≠ []) (hsel : sel ∈ paths)
    (m n : Nat) (p q : TarPath) (hmn : m < n)
    (hp : p ∈ bfsLevel (treeDict paths) [sel] m)
    (hq : q ∈ bfsLevel (treeDict paths) [sel] n) :
    ∃ pre post, bfsLoop (treeDict paths) (paths.length + 1) [sel] = pre ++ post ∧
      p ∈ pre ∧ q ∈ post := by
  set S := (paths.map numSegs).sum with hS
  have hnS : n < S := by
    by_contra hge
    have : bfsLevel (treeDict paths) [sel] n = [] :=
      bfsLevel_empty_of_large paths sel hwf hsel n (by omega)
    rw [this] at hq
    exact absurd hq (List.not_mem_nil q)
  have hsplit := bfsJoin_split (treeDict paths) (m + 1) S [sel] (by omega)
  refine ⟨bfsJoin (treeDict paths) [sel] (m + 1),
    bfsJoin (treeDict paths) (bfsLevel (treeDict paths) [sel] (m + 1)) (S - (m + 1)),
    ?_, ?_, ?_⟩
  · rw [bfsLoop_run paths sel hnd hwf hsel, ← hS, hsplit]
  · exact (mem_bfsJoin _ _ _ p).mpr ⟨m, by omega, hp⟩
  · refine (mem_bfsJoin _ _ _ q).mpr ⟨n - (m + 1), by omega, ?_⟩
    rw [← bfsLevel_add]
    have : m + 1 + (n - (m + 1)) = n := by omega
    rw [this]
    exact hq

/-! ### Slicing and lowercasing for the preview extension test -/

theorem pySliceLast_eq_iff (n : Nat) (l t : List Char) (ht : t.length = n) :
    pySliceLast n l = t ↔ t <:+ l := by
  constructor
  · intro h
    rw [← h]
    exact List.drop_suffix _ l
  · rintro ⟨pre, hpre⟩
    rw [pySliceLast, ← hpre]
    have : (pre ++ t).length - n = pre.length := by
      simp [ht]
    rw [this]
    exact List.drop_left pre t

theorem pySliceLast_map (f : Char → Char) (n : Nat) (l : List Char) :
    (pySliceLast n l).map f = pySliceLast n (l.map f) := by
  rw [pySliceLast, pySliceLast, List.map_drop, List.length_map]

theorem pySliceLast_four_five (l : List Char) :
    pySliceLast 4 (pySliceLast 5 l) = pySliceLast 4 l := by
  rw [pySliceLast, pySliceLast, pySliceLast, List.length_drop, List.drop_drop]
  have : l.length - 5 + (l.length - (l.length - 5) - 4) = l.length - 4 := by
    omega
  rw [this]

/-! ### Claim theorems -/

/-- C1: for every member list accepted at load time, the Path Index puts
every member path in exactly one bucket, the one keyed by its parent
path, and (for the relative paths the data model prescribes, i.e. paths
not beginning with the separator) the root bucket keyed by the empty
string holds exactly the single-segment member paths. -/
theorem claim_C1_path_index_buckets (paths : List TarPath) (st : AppState)
    (hinit : initExplorer paths = some st)
    (hrel : ∀ p ∈ paths, p.head? ≠ some DELIMITER) :
    (∀ p ∈ paths, p ∈ st.tree_dict (tarParent p)) ∧
    (∀ p k, p ∈ st.tree_dict k → p ∈ paths ∧ k = tarParent p) ∧
    (∀ p, p ∈ st.tree_dict [] ↔ (p ∈ paths ∧ numSegs p = 1)) := by
  have hne : paths ≠ [] := by
    intro h
    rw [initExplorer, if_pos h] at hinit
    exact Option.noConfusion hinit
  rw [initExplorer, if_neg hne] at hinit
  have htd : st.tree_dict = treeDict paths := by
    rw [← Option.some.inj hinit]
  refine ⟨?_, ?_, ?_⟩
  · intro p hp
    rw [htd, mem_treeDict]
    exact ⟨hp, rfl⟩
  · intro p k hp
    rw [htd, mem_treeDict] at hp
    exact ⟨hp.1, hp.2.symm⟩
  · intro p
    rw [htd, mem_treeDict]
    constructor
    · intro ⟨h1, h2⟩
      exact ⟨h1, (tarParent_eq_nil_iff p (hrel p h1)).mp h2⟩
    · intro ⟨h1, h2⟩
      exact ⟨h1, (tarParent_eq_nil_iff p (hrel p h1)).mpr h2⟩

theorem claim_C1_witness :
    (['a', '/', 'b'] ∈ wState.tree_dict (tarParent ['a', '/', 'b'])) ∧
    (['a', '/', 'b'] ∈ wState.tree_dict [] ↔
      (['a', '/', 'b'] ∈ wPaths ∧ numSegs ['a', '/', 'b'] = 1)) :=
  ⟨(claim_C1_path_index_buckets wPaths wState
      (by rw [initExplorer, if_neg (by decide)]; rfl) (by decide)).1
      (['a', '/', 'b']) (by decide),
   (claim_C1_path_index_buckets wPaths wState
      (by rw [initExplorer, if_neg (by decide)]; rfl) (by decide)).2.2
      (['a', '/', 'b'])⟩

/-- C4 counterexample: loading an archive with zero members does not
succeed; the unpacking of the sorted (path, parent) pairs raises, which
the model renders as none. -/
theorem claim_C4_counterexample : initExplorer [] = none := rfl

/-- C4 (amended): index construction fails exactly on the zero-member
archive (the unzip of the sorted pairs has nothing to unpack); for every
non-empty member list it succeeds with no error, and the root entry is
the list of members whose computed parent path is empty (empty when
there are none, via the defaultdict default). -/
theorem claim_C4_amended (paths : List TarPath) :
    (initExplorer paths = none ↔ paths = []) ∧
    (∀ st, initExplorer paths = some st →
      ∀ p, p ∈ st.tree_dict [] ↔ (p ∈ paths ∧ tarParent p = [])) := by
  constructor
  · constructor
    · intro h
      by_contra hne
      rw [initExplorer, if_neg hne] at h
      exact Option.noConfusion h
    · intro h
      rw [initExplorer, if_pos h]
  · intro st hst p
    have hne : paths ≠ [] := by
      intro h
      rw [initExplorer, if_pos h] at hst
      exact Option.noConfusion hst
    rw [initExplorer, if_neg hne] at hst
    have htd : st.tree_dict = treeDict paths := by
      rw [← Option.some.inj hst]
    rw [htd, mem_treeDict]

theorem claim_C4_witness :
    ['a'] ∈ wState.tree_dict [] ↔ (['a'] ∈ wPaths ∧ tarParent ['a'] = []) :=
  (claim_C4_amended wPaths).2 wState
    (by rw [initExplorer, if_neg (by decide)]; rfl) (['a'])

/-- C6: the parent-to-children mapping is never changed after
construction: every dispatched user action (navigation double-click,
preview click, extraction, close) returns a state with the same
tree_dict.  (The Python defaultdict inserts a missing key with the
default empty list on lookup; that leaves the observable mapping, which
is what the model stores, unchanged.) -/
theorem claim_C6_index_immutable (isFile : TarPath → Bool) (tmpdir : TarPath)
    (st : AppState) (a : UserAction) :
    (step isFile tmpdir st a).tree_dict = st.tree_dict := by
  cases a with
  | dblClick sel =>
    rw [step, dbl_click_listbox]
    split
    · rfl
    · split <;> rfl
  | preview sel w h => rfl
  | extract sel => rfl
  | close confirm =>
    rw [step, on_close]
    split
    · rfl
    · split <;> rfl

/-- C7: on_close closes without showing the dialog exactly when no
quick-view temp file was ever opened (and then tears down the staging
directory and the window); when one was opened the dialog is always
shown, and a declined confirmation leaves the whole state, staging area
and navigation included, untouched. -/
theorem claim_C7_close_prompt (st : AppState) (confirm : Bool) :
    ((on_close st confirm).2 = false ↔ st.opened_at_least_one_tmp = false) ∧
    (st.opened_at_least_one_tmp = false →
      (on_close st confirm).1.window_open = false ∧
      (on_close st confirm).1.staging_live = false ∧
      (on_close st confirm).2 = false) ∧
    (st.opened_at_least_one_tmp = true → confirm = false →
      on_close st confirm = (st, true)) := by
  cases hb : st.opened_at_least_one_tmp <;> cases confirm <;>
    simp [on_close, hb]

theorem claim_C7_witness :
    on_close { wState with opened_at_least_one_tmp := true } false =
      ({ wState with opened_at_least_one_tmp := true }, true) :=
  (claim_C7_close_prompt { wState with opened_at_least_one_tmp := true }
    false).2.2 rfl rfl

/-- C8: double-clicking a file stages it under its base file name (the
last segment of its path) in the temp directory, sets the opened-a-temp
flag, calls the viewer on the staged path, and leaves current_path and
hence the displayed listing unchanged. -/
theorem claim_C8_file_open (isFile : TarPath → Bool) (tmpdir : TarPath)
    (st : AppState) (sel : TarPath)
    (hpm : sel ≠ parentMarker) (hfile : isFile sel = true) :
    dbl_click_listbox isFile tmpdir st sel =
      ({ st with opened_at_least_one_tmp := true },
        [Event.stageWrite (tmpdir ++ DELIMITER :: (pySplit DELIMITER sel).getLastD []),
         Event.view (tmpdir ++ DELIMITER :: (pySplit DELIMITER sel).getLastD [])]) ∧
    (dbl_click_listbox isFile tmpdir st sel).1.current_path = st.current_path ∧
    listing (dbl_click_listbox isFile tmpdir st sel).1.tree_dict
        (dbl_click_listbox isFile tmpdir st sel).1.current_path =
      listing st.tree_dict st.current_path := by
  rw [dbl_click_listbox, if_neg hpm, if_pos hfile]
  exact ⟨rfl, rfl, rfl⟩

theorem claim_C8_witness :
    dbl_click_listbox wIsFile ['t', 'm', 'p'] wState ['d', '.', 't', 'x', 't'] =
      ({ wState with opened_at_least_one_tmp := true },
        [Event.stageWrite ['t', 'm', 'p', '/', 'd', '.', 't', 'x', 't'],
         Event.view ['t', 'm', 'p', '/', 'd', '.', 't', 'x', 't']]) :=
  (claim_C8_file_open wIsFile ['t', 'm', 'p'] wState ['d', '.', 't', 'x', 't']
    (by decide) (by decide)).1

/-- C10: extracting a file that sits at the archive root (its path has
no separator) calls the viewer with the empty string as the containing
directory. -/
theorem claim_C10_root_file_view_empty (tree : TarPath → List TarPath)
    (isFile : TarPath → Bool) (fuel : Nat) (sel : TarPath)
    (hpm : sel ≠ parentMarker) (hfile : isFile sel = true)
    (hroot : DELIMITER ∉ sel) :
    extract_selection tree isFile fuel sel =
      [Event.extractDisk sel, Event.view []] := by
  have hpar : tarParent sel = [] := by
    rw [tarParent, pySplit_no_sep DELIMITER sel hroot]
    rfl
  rw [extract_selection, if_neg hpm, if_pos hfile, hpar]

theorem claim_C10_witness :
    extract_selection (treeDict wPaths) wIsFile (wPaths.length + 1)
      ['d', '.', 't', 'x', 't'] =
      [Event.extractDisk ['d', '.', 't', 'x', 't'], Event.view []] :=
  claim_C10_root_file_view_empty (treeDict wPaths) wIsFile (wPaths.length + 1)
    ['d', '.', 't', 'x', 't'] (by decide) (by decide) (by decide)

/-- C3: from the root listing, double-clicking any subdirectory listed
at root and then double-clicking the parent marker brings current_path
back to root, so the displayed listing is exactly the original root
listing again. -/
theorem claim_C3_roundtrip (paths : List TarPath) (isFile : TarPath → Bool)
    (tmpdir : TarPath) (st : AppState) (d : TarPath)
    (hst : st.tree_dict = treeDict paths) (hcur : st.current_path = [])
    (hd : d ∈ treeDict paths []) (hdir : isFile d = false) :
    (dbl_click_listbox isFile tmpdir
        (dbl_click_listbox isFile tmpdir st d).1 parentMarker).1.current_path
      = [] ∧
    listing
        (dbl_click_listbox isFile tmpdir
          (dbl_click_listbox isFile tmpdir st d).1 parentMarker).1.tree_dict
        (dbl_click_listbox isFile tmpdir
          (dbl_click_listbox isFile tmpdir st d).1 parentMarker).1.current_path
      = listing (treeDict paths) [] := by
  have hpar : tarParent d = [] := treeDict_parent paths [] d hd
  by_cases hdpm : d = parentMarker
  · subst hdpm
    simp only [dbl_click_listbox, if_pos rfl, hcur]
    constructor
    · rfl
    · rw [hst]
      rfl
  · have hstep1 : dbl_click_listbox isFile tmpdir st d =
        ({ st with current_path := d }, []) := by
      rw [dbl_click_listbox, if_neg hdpm, hdir]
      simp
    rw [hstep1]
    simp only [dbl_click_listbox, if_pos rfl]
    constructor
    · exact hpar
    · show listing st.tree_dict (tarParent d) = listing (treeDict paths) []
      rw [hpar, hst]

theorem claim_C3_witness :
    (dbl_click_listbox wIsFile ['t', 'm', 'p']
        (dbl_click_listbox wIsFile ['t', 'm', 'p'] wState ['a']).1
        parentMarker).1.current_path = [] ∧
    listing
        (dbl_click_listbox wIsFile ['t', 'm', 'p']
          (dbl_click_listbox wIsFile ['t', 'm', 'p'] wState ['a']).1
          parentMarker).1.tree_dict
        (dbl_click_listbox wIsFile ['t', 'm', 'p']
          (dbl_click_listbox wIsFile ['t', 'm', 'p'] wState ['a']).1
          parentMarker).1.current_path
      = listing (treeDict wPaths) [] :=
  claim_C3_roundtrip wPaths wIsFile ['t', 'm', 'p'] wState ['a']
    rfl rfl (by decide) (by decide)

theorem count_eq_one_of_nodup_mem (l : List TarPath) (a : TarPath)
    (h : l.Nodup) (ha : a ∈ l) : List.count a l = 1 := by
  induction l with
  | nil => simp at ha
  | cons x xs ih =>
    rw [List.count_cons]
    rcases List.mem_cons.mp ha with rfl | hmem
    · have hx : a ∉ xs := (List.nodup_cons.mp h).1
      rw [List.count_eq_zero_of_not_mem hx]
      simp
    · have hne : x ≠ a := by
        intro hEq
        subst hEq
        exact (List.nodup_cons.mp h).1 hmem
      rw [ih (List.nodup_cons.mp h).2 hmem]
      simp [hne]

/-- C2: extracting a selected directory entry runs the queue-based
breadth-first traversal of the Path Index: the sequence of extraction
calls lists, exactly once each, precisely the descendants of the
selection (the selection included), each directory is extracted before
any member of its bucket, and the single viewer call on the selected
directory comes after all extraction calls.  The hypotheses state that
the archive member list has no duplicates and no empty name, and that
the selection is a member directory. -/
theorem claim_C2_extract_dir_bfs (paths : List TarPath)
    (isFile : TarPath → Bool) (sel : TarPath)
    (hnd : paths.Nodup) (hwf : ∀ p ∈ paths, p ≠ [])
    (hsel : sel ∈ paths) (hpm : sel ≠ parentMarker)
    (hdir : isFile sel = false) :
    ∃ order : List TarPath,
      extract_selection (treeDict paths) isFile (paths.length + 1) sel =
        order.map Event.extractDisk ++ [Event.view sel] ∧
      (∀ p, p ∈ order ↔ Descendant (treeDict paths) sel p) ∧
      (∀ p, Descendant (treeDict paths) sel p → List.count p order = 1) ∧
      (∀ k c, k ∈ order → c ∈ treeDict paths k →
        ∃ pre post, order = pre ++ post ∧ k ∈ pre ∧ c ∈ post) := by
  refine ⟨bfsLoop (treeDict paths) (paths.length + 1) [sel], ?_, ?_, ?_, ?_⟩
  · rw [extract_selection, if_neg hpm, hdir]
    simp
  · exact mem_bfsLoop_iff_descendant paths sel hnd hwf hsel
  · intro p hp
    apply count_eq_one_of_nodup_mem
    · rw [bfsLoop_run paths sel hnd hwf hsel]
      exact bfsJoin_start_nodup paths sel hnd hwf hsel _
    · exact (mem_bfsLoop_iff_descendant paths sel hnd hwf hsel p).mpr hp
  · intro k c hk hc
    rw [bfsLoop_run paths sel hnd hwf hsel] at hk
    obtain ⟨m, hmS, hkm⟩ := (mem_bfsJoin _ _ _ k).mp hk
    have hcm : c ∈ bfsLevel (treeDict paths) [sel] (m + 1) := by
      rw [bfsLevel]
      exact (mem_flatChildren _ _ _).mpr ⟨k, hkm, hc⟩
    exact bfsLoop_before paths sel hnd hwf hsel m (m + 1) k c
      (by omega) hkm hcm

theorem claim_C2_witness :
    ∃ order : List TarPath,
      extract_selection (treeDict wPaths) wIsFile (wPaths.length + 1) ['a'] =
        order.map Event.extractDisk ++ [Event.view ['a']] ∧
      (∀ p, p ∈ order ↔ Descendant (treeDict wPaths) ['a'] p) ∧
      (∀ p, Descendant (treeDict wPaths) ['a'] p → List.count p order = 1) ∧
      (∀ k c, k ∈ order → c ∈ treeDict wPaths k →
        ∃ pre post, order = pre ++ post ∧ k ∈ pre ∧ c ∈ post) :=
  claim_C2_extract_dir_bfs wPaths wIsFile ['a'] (by decide) (by decide)
    (by decide) (by decide) (by decide)

/-- C9 counterexample: the walk is not depth-first.  In the archive
with members a, a/b, a/b/x, a/c, d.txt, the bucket of a is [a/b, a/c]
and a/b/x lies in the subtree of the earlier child a/b, yet extracting
the directory a extracts the later child a/c before a/b/x. -/
theorem claim_C9_counterexample :
    treeDict wPaths ['a'] = [['a', '/', 'b'], ['a', '/', 'c']] ∧
    ['a', '/', 'b', '/', 'x'] ∈ treeDict wPaths ['a', '/', 'b'] ∧
    extract_selection (treeDict wPaths) wIsFile (wPaths.length + 1) ['a'] =
      [Event.extractDisk ['a'],
       Event.extractDisk ['a', '/', 'b'],
       Event.extractDisk ['a', '/', 'c'],
       Event.extractDisk ['a', '/', 'b', '/', 'x'],
       Event.view ['a']] := by decide

/-- C9 (amended): the recursive-extraction walk over the Path Index is
breadth-first, not depth-first: whenever two entries are both extracted
and the first is a shallower path (fewer segments) than the second, the
first is extracted earlier; in particular, with two child subtrees, all
children come before any grandchild of either. -/
theorem claim_C9_amended_breadth_first (paths : List TarPath)
    (sel : TarPath) (hnd : paths.Nodup) (hwf : ∀ p ∈ paths, p ≠ [])
    (hsel : sel ∈ paths) (p q : TarPath)
    (hp : p ∈ bfsLoop (treeDict paths) (paths.length + 1) [sel])
    (hq : q ∈ bfsLoop (treeDict paths) (paths.length + 1) [sel])
    (hrank : numSegs p < numSegs q) :
    ∃ pre post,
      bfsLoop (treeDict paths) (paths.length + 1) [sel] = pre ++ post ∧
      p ∈ pre ∧ q ∈ post := by
  rw [bfsLoop_run paths sel hnd hwf hsel] at hp hq
  obtain ⟨m, hmS, hpm2⟩ := (mem_bfsJoin _ _ _ p).mp hp
  obtain ⟨n, hnS, hqn⟩ := (mem_bfsJoin _ _ _ q).mp hq
  have h1 := (bfsLevel_rank paths sel hwf hsel m p hpm2).2
  have h2 := (bfsLevel_rank paths sel hwf hsel n q hqn).2
  exact bfsLoop_before paths sel hnd hwf hsel m n p q (by omega) hpm2 hqn

theorem claim_C9_amended_witness :
    ∃ pre post,
      bfsLoop (treeDict wPaths) (wPaths.length + 1) [['a']] = pre ++ post ∧
      ['a', '/', 'c'] ∈ pre ∧ ['a', '/', 'b', '/', 'x'] ∈ post :=
  claim_C9_amended_breadth_first wPaths ['a'] (by decide) (by decide)
    (by decide) ['a', '/', 'c'] ['a', '/', 'b', '/', 'x']
    (by decide) (by decide) (by decide)

theorem imageExt_iff (sel : TarPath) :
    ((pySliceLast 4 sel).map asciiLower ∈ imageTail4 ∨
     (pySliceLast 5 sel).map asciiLower ∈ imageTail5) ↔
    ∃ e ∈ imageExts, e <:+ sel.map asciiLower := by
  rw [pySliceLast_map, pySliceLast_map]
  constructor
  · rintro (h | h)
    · exact ⟨pySliceLast 4 (sel.map asciiLower),
        by rw [imageExts, List.mem_append]; exact Or.inl h,
        List.drop_suffix _ _⟩
    · exact ⟨pySliceLast 5 (sel.map asciiLower),
        by rw [imageExts, List.mem_append]; exact Or.inr h,
        List.drop_suffix _ _⟩
  · rintro ⟨e, he, hsuf⟩
    rw [imageExts, List.mem_append] at he
    rcases he with h4 | h5
    · left
      have hlen : e.length = 4 := by
        rcases (by simpa [imageTail4] using h4 :
            e = ['.', 'p', 'n', 'g'] ∨ e = ['.', 't', 'i', 'f'] ∨
            e = ['.', 'j', 'p', 'g']) with rfl | rfl | rfl <;> rfl
      rw [(pySliceLast_eq_iff 4 (sel.map asciiLower) e hlen).mpr hsuf]
      exact h4
    · right
      have hlen : e.length = 5 := by
        rcases (by simpa [imageTail5] using h5 :
            e = ['.', 'j', 'p', 'e', 'g'] ∨ e = ['.', 't', 'i', 'f', 'f'] ∨
            e = ['.', 'w', 'e', 'b', 'p']) with rfl | rfl | rfl <;> rfl
      rw [(pySliceLast_eq_iff 5 (sel.map asciiLower) e hlen).mpr hsuf]
      exact h5

/-- C5 counterexample: two preview invocations agreeing on the whole
triple (not the parent marker, not a file, same suffix) produce
different preview outcomes once the available canvas differs: with room
the directory placeholder is drawn, with a small canvas nothing is, so
the outcome is not determined by the triple alone. -/
theorem claim_C5_counterexample :
    click_listbox (fun _ => false) ['a'] 100 100 = Preview.placeholderText ∧
    click_listbox (fun _ => false) ['a'] 100 40 = Preview.blank ∧
    Preview.placeholderText ≠ Preview.blank := by decide

/-- C5 (amended): once both canvas dimensions exceed 50, the preview
outcome is a pure function of the triple (is-parent-marker, is-file,
lowercased suffix), and the image mode is chosen exactly when the
lowercased selection ends in one of png, jpg, jpeg, tif, tiff, webp;
when either canvas dimension is at most 50 nothing is drawn, whatever
the triple. -/
theorem claim_C5_amended :
    (∀ (f g : TarPath → Bool) (sel1 sel2 : TarPath) (w1 h1 w2 h2 : Int),
      50 < min h1 w1 → 50 < min h2 w2 →
      ((sel1 = parentMarker) ↔ (sel2 = parentMarker)) →
      (pySliceLast 5 sel1).map asciiLower = (pySliceLast 5 sel2).map asciiLower →
      f sel1 = g sel2 →
      click_listbox f sel1 w1 h1 = click_listbox g sel2 w2 h2) ∧
    (∀ (f : TarPath → Bool) (sel : TarPath) (w h : Int), 50 < min h w →
      (click_listbox f sel w h = Preview.imageRender ↔
        (sel ≠ parentMarker ∧ f sel = true ∧
          ∃ e ∈ imageExts, e <:+ sel.map asciiLower))) ∧
    (∀ (f : TarPath → Bool) (sel : TarPath) (w h : Int), min h w ≤ 50 →
      click_listbox f sel w h = Preview.blank) := by
  refine ⟨?_, ?_, ?_⟩
  · intro f g sel1 sel2 w1 h1 w2 h2 hc1 hc2 hpm hsuf hfg
    have hn1 : ¬(min h1 w1 ≤ 50) := by omega
    have hn2 : ¬(min h2 w2 ≤ 50) := by omega
    have e5 : pySliceLast 5 (sel1.map asciiLower) =
        pySliceLast 5 (sel2.map asciiLower) := by
      rw [← pySliceLast_map, ← pySliceLast_map, hsuf]
    have e4 : (pySliceLast 4 sel1).map asciiLower =
        (pySliceLast 4 sel2).map asciiLower := by
      rw [pySliceLast_map, pySliceLast_map,
        ← pySliceLast_four_five (sel1.map asciiLower),
        ← pySliceLast_four_five (sel2.map asciiLower), e5]
    rw [click_listbox, click_listbox, if_neg hn1, if_neg hn2]
    by_cases hp1 : sel1 = parentMarker
    · rw [if_pos hp1, if_pos (hpm.mp hp1)]
    · rw [if_neg hp1, if_neg (fun h => hp1 (hpm.mpr h)), hfg, e4, hsuf]
  · intro f sel w h hcv
    have hn : ¬(min h w ≤ 50) := by omega
    rw [click_listbox, if_neg hn]
    by_cases hp : sel = parentMarker
    · rw [if_pos hp]
      simp [hp]
    · rw [if_neg hp]
      by_cases hf : f sel = false
      · rw [if_pos hf]
        simp [hp, hf]
      · rw [if_neg hf]
        have hft : f sel = true := by
          revert hf
          cases f sel <;> simp
        by_cases he : (pySliceLast 4 sel).map asciiLower ∈ imageTail4 ∨
            (pySliceLast 5 sel).map asciiLower ∈ imageTail5
        · rw [if_neg (not_not_intro he)]
          simp only [true_iff, iff_true]
          exact ⟨hp, hft, (imageExt_iff sel).mp he⟩
        · rw [if_pos he]
          constructor
          · intro hcontra
            exact absurd hcontra (by simp)
          · rintro ⟨-, -, hex⟩
            exact absurd ((imageExt_iff sel).mpr hex) he
  · intro f sel w h hcv
    rw [click_listbox, if_pos hcv]

theorem claim_C5_witness :
    click_listbox (fun _ => true) ['a', '.', 'P', 'N', 'G'] 100 100 =
      click_listbox (fun _ => true) ['a', '.', 'p', 'n', 'g'] 60 60 :=
  claim_C5_amended.1 (fun _ => true) (fun _ => true)
    ['a', '.', 'P', 'N', 'G'] ['a', '.', 'p', 'n', 'g'] 100 100 60 60
    (by decide) (by decide) (by decide) (by decide) rfl
